import Mathlib

/-
Verification of the clustering stage of the spike-sorting pipeline
(spikeinterface/sortingcomponents/clustering/circus.py and random_projections.py),
as a shallow embedding: peaks are represented by their channel index, peak labels
by lists of integers, and the external numeric routines (hdbscan, TruncatedSVD,
the node pipeline) by function parameters whose documented contracts appear as
hypotheses of the theorems.
-/

set_option maxRecDepth 8000

namespace Clustering

/-- A peak together with its mutable clustering state: `(channel_index, label)`;
label `-1` means unassigned/noise. -/
abbrev PeakL := Int × Int

/-- Model of `np.unique`: the sorted list of distinct values. -/
def npUnique (xs : List Int) : List Int :=
  List.insertionSort (fun a b : Int => a ≤ b) xs.dedup

/-- Number of peaks whose channel index equals `c`, that is the size of the mask
`peaks["channel_index"] == c`. -/
def countCh (pl : List PeakL) (c : Int) : Nat :=
  List.count c (pl.map Prod.fst)

/-- Model of `peak_labels[mask] = local_labels`: replace, in order, the labels of the
peaks of channel `c` by the successive elements of `ls`, leaving other peaks unchanged. -/
def scatter : List PeakL → Int → List Int → List PeakL
  | [], _, _ => []
  | p :: rest, c, [] => p :: scatter rest c []
  | p :: rest, c, x :: xs =>
    if p.1 = c then (p.1, x) :: scatter rest c xs
    else p :: scatter rest c (x :: xs)

/-- Model of `local_labels[valid_clusters] += nb_clusters` (circus.py line 173), applied
entrywise: only non-noise labels are shifted by the running offset. -/
def shiftLabel (nb l : Int) : Int := if -1 < l then l + nb else l

/-- Model of `len(np.unique(local_labels[valid_clusters]))` (circus.py line 175). -/
def distinctValid (ls : List Int) : Nat :=
  ((ls.filter (fun l => decide (-1 < l))).dedup).length

/-- The per-channel hdbscan outcome with the exception fallback of circus.py lines
165-170: on success the returned label array, on an exception `np.zeros(len(data))`. -/
def localLabels (clus : Int → Nat → Except Unit (List Int)) (c : Int) (k : Nat) : List Int :=
  match clus c k with
  | Except.ok ls => ls
  | Except.error _ => List.replicate k 0

/-- One iteration of the per-channel loop of `CircusClustering.main_function`
(circus.py lines 160-175), acting on the state `(peak_labels, nb_clusters)`:
if the channel has at least one valid local label, shift the valid labels by the
running offset, write them into the label array, and bump the offset by the number
of distinct valid labels; otherwise leave the state unchanged. -/
def channelStep (clus : Int → Nat → Except Unit (List Int)) (st : List PeakL × Int)
    (c : Int) : List PeakL × Int :=
  let ls0 := localLabels clus c (countCh st.1 c)
  if 0 < (ls0.filter (fun l => decide (-1 < l))).length then
    (scatter st.1 c (ls0.map (shiftLabel st.2)),
      st.2 + (distinctValid (ls0.map (shiftLabel st.2)) : Int))
  else st

/-- The whole loop `for c in np.unique(peaks["channel_index"])` of circus.py
lines 160-175, starting from `nb_clusters = 0`. -/
def circusChannelLoop (clus : Int → Nat → Except Unit (List Int)) (chans : List Int)
    (pl0 : List PeakL) : List PeakL × Int :=
  chans.foldl (channelStep clus) (pl0, 0)

/-- Model of `peak_labels = -1 * np.ones(len(peaks), dtype=int)` (circus.py line 158):
every peak starts as noise. -/
def initLabels (channels : List Int) : List PeakL := channels.map (fun c => (c, -1))

/-- The per-channel clustering stage of `CircusClustering.main_function`: initialize all
labels to `-1`, then run the per-channel loop; returns the final
`(peak_labels, nb_clusters)` state.  A peak is represented by its channel index. -/
def circusClusterLabels (clus : Int → Nat → Except Unit (List Int))
    (channels : List Int) : List PeakL × Int :=
  circusChannelLoop clus (npUnique channels) (initLabels channels)

/-- Model of `labels = np.unique(peak_labels); labels = labels[labels >= 0]`
(circus.py lines 177-178). -/
def labelsOf (pl : List PeakL) : List Int :=
  (npUnique (pl.map Prod.snd)).filter (fun l => decide (0 ≤ l))

/-- Model of `np.where(bs)[0]`: the indices at which `bs` holds. -/
def whereTrue (bs : List Bool) : List Int :=
  (bs.enum.filter (fun p => p.2)).map (fun p => (p.1 : Int))

/-- Model of `peak_labels[np.isin(peak_labels, removed)] = -1`. -/
def resetLabels (removed : List Int) (pl : List Int) : List Int :=
  pl.map (fun l => if l ∈ removed then -1 else l)

/-- Absolute values of a template row, `np.abs(templates_array[:, nbefore, :])`
restricted to one unit (random_projections.py line 149). -/
def absRow (row : List ℚ) : List ℚ := row.map (fun x => |x|)

/-- Model of `np.argmax`: the first index attaining the maximum (0 on an empty list). -/
def argmaxIdx : List ℚ → Nat
  | [] => 0
  | x :: xs => if x < xs.getD (argmaxIdx xs) x then argmaxIdx xs + 1 else 0

/-- Model of random_projections.py lines 148-151: a unit is a valid template when the
absolute central amplitude divided by the noise level, taken at the best (argmax)
channel, exceeds the noise threshold.  `centers` holds per unit the row
`templates_array[u, nbefore, :]`. -/
def validTemplates (centers : List (List ℚ)) (noise : List ℚ) (threshold : ℚ) :
    List Bool :=
  centers.map (fun row =>
    decide (threshold <
      ((absRow row).zipWith (fun a b => a / b) noise).getD (argmaxIdx (absRow row)) 0))

/-- Model of the label resets of random_projections.py lines 169-173: first reset the
labels listed in `np.where(empty_templates)[0]` (note: indices into the list of
templates that survived the SNR filter), then the labels in
`np.where(~valid_templates)[0]` (indices into the original unit list). -/
def prunePeakLabels (valid empt : List Bool) (pl : List Int) : List Int :=
  resetLabels (whereTrue (valid.map not)) (resetLabels (whereTrue empt) pl)

/-- The original unit indices removed by the pruning stage: the units failing the SNR
test (`~valid`), plus the SNR-surviving units whose sparsity mask came out empty
(`empt` is indexed by position in the filtered template list, exactly as the arrays
`valid_templates` and `empty_templates` relate in the code). -/
def removedUnits (valid empt : List Bool) : List Int :=
  whereTrue (valid.map not) ++
    (((whereTrue valid).zip empt).filter (fun p => p.2)).map (fun p => p.1)

/-- Python `int()` applied to an exact rational: truncation toward zero.  This models
`int(ms_before * fs / 1000.0)` at circus.py lines 91-92 and
random_projections.py lines 71-72. -/
def pyInt (q : ℚ) : ℤ := if 0 ≤ q then ⌊q⌋ else -⌊-q⌋

/-- Python 3 `round()` on an exact rational: nearest integer with ties to even, the
rounding the specification prescribes for the sample-window computation. -/
def pyRound (q : ℚ) : ℤ :=
  if q - (⌊q⌋ : ℚ) < 1/2 then ⌊q⌋
  else if (1 : ℚ)/2 < q - (⌊q⌋ : ℚ) then ⌊q⌋ + 1
  else if ⌊q⌋ % 2 = 0 then ⌊q⌋ else ⌊q⌋ + 1

/-- The sample count the code derives from a millisecond parameter:
`nbefore = int(ms_before * fs / 1000.0)` (used identically for `nafter`). -/
def nbefore_of (ms fs : ℚ) : ℤ := pyInt (ms * fs / 1000)

/-- The window length `num_samples = nbefore + nafter` (circus.py line 93). -/
def num_samples_of (msb msa fs : ℚ) : ℤ := nbefore_of msb fs + nbefore_of msa fs

/-- Model of `num_projections = min(num_chans, d["nb_projections"])`
(random_projections.py line 88). -/
def num_projections_of (num_chans nbp : Nat) : Nat := min num_chans nbp

/-- The random projection matrix of random_projections.py line 89: shape
`(num_chans, num_projections)`; `g i j` models the seeded Gaussian draw
`rng.normal(loc=0, scale=1/sqrt(num_chans))` for entry `(i, j)`. -/
def projectionsMatrix (g : Nat → Nat → ℚ) (num_chans nbp : Nat) : List (List ℚ) :=
  (List.range num_chans).map (fun i =>
    (List.range (num_projections_of num_chans nbp)).map (fun j => g i j))

/-- Number of columns of a matrix stored as a list of rows. -/
def numCols (m : List (List ℚ)) : Nat :=
  match m with
  | [] => 0
  | row :: _ => row.length

/-- Column `j` of a matrix stored as a list of rows. -/
def colOf (m : List (List ℚ)) (j : Nat) : List ℚ := m.map (fun row => row.getD j 0)

/-- Dot product of two equally long lists. -/
def dot (xs ys : List ℚ) : ℚ := ((xs.zipWith (fun a b => a * b) ys)).sum

/-- Energy (squared norm) of a projected single-channel trace. -/
def energy (xs : List ℚ) : ℚ := (xs.map (fun x => x * x)).sum

/-- Modelled from the spec: `RandomProjectionsFeature` (features_from_peaks.py is not
under src/).  Per spec section 4.2, the waveform `wf` (samples times channels) is
projected through the matrix and one scalar feature (the energy norm) is computed per
projected channel, giving one feature vector per peak with one entry per
projection column. -/
def featureVector (m : List (List ℚ)) (wf : List (List ℚ)) : List ℚ :=
  (List.range (numCols m)).map (fun j =>
    energy (wf.map (fun sampleRow => dot sampleRow (colOf m j))))

/-- Modelled from the spec: the unit-merging core of `remove_duplicates_via_matching`
(clustering_tools.py is not under src/).  Spec section 4.6: unit pairs whose templates
are near-duplicates under a fixed-threshold criterion (`sim`) are merged keeping one
representative; scanning units in increasing order, a unit is discarded exactly when a
surviving smaller unit is similar to it. -/
def survivors (sim : Nat → Nat → Bool) : Nat → List Nat
  | 0 => []
  | n + 1 =>
    let s := survivors sim n
    if s.any (fun i => sim i n) then s else s ++ [n]

/-- Modelled from the spec: the label redirection of `remove_duplicates_via_matching`
(spec section 4.6 step 2): the peak labels of a discarded unit are redirected to the
surviving representative; a surviving unit keeps its own index; a unit with no
matching survivor maps to `-1`. -/
def reprOf (sim : Nat → Nat → Bool) (n u : Nat) : Int :=
  if u ∈ survivors sim n then (u : Int)
  else
    match (survivors sim n).find? (fun i => sim i u) with
    | some i => (i : Int)
    | none => -1

/-- Modelled from the spec: entrywise relabeling of the peak-label array by
`remove_duplicates_via_matching` (spec section 4.6 step 3): out-of-range or noise
labels become `-1`, valid unit indices are redirected to their representative. -/
def relabelMap (sim : Nat → Nat → Bool) (n : Nat) (l : Int) : Int :=
  if 0 ≤ l ∧ l < (n : Int) then reprOf sim n l.toNat else -1

/-- Modelled from the spec: `remove_duplicates_via_matching` (clustering_tools.py is
not under src/), called at circus.py lines 219-221 and random_projections.py lines
182-184.  Spec section 4.6 step 3: the output is the canonical `(labels, peak_labels)`
pair, `labels` the sorted unique surviving unit indices, `peak_labels` the
original-length array with merged/removed assignments redirected or set to `-1`.
`sim` is the fixed-threshold template-similarity criterion over the `n` input units. -/
def remove_duplicates_via_matching (sim : Nat → Nat → Bool) (n : Nat)
    (pl : List Int) : List Int × List Int :=
  ((survivors sim n).map Int.ofNat, pl.map (relabelMap sim n))

/-- The clustering entry point `CircusClustering.main_function` reduced to its label
flow: the per-channel clustering loop followed by the matching-based deduplication,
the number of raw units being the count of distinct non-noise labels (circus.py line
186).  `fam seed` models the seed-dependence of the per-channel feature extraction,
subsampling and hdbscan outcome (the global NumPy generator is reseeded with
`params["random_seed"]` at circus.py line 95 before any of them run). -/
def circusPipeline (fam : Nat → Int → Nat → Except Unit (List Int))
    (sim : Nat → Nat → Bool) (channels : List Int) (seed : Nat) :
    List Int × List Int :=
  let pl := (circusClusterLabels (fam seed) channels).1
  remove_duplicates_via_matching sim (labelsOf pl).length (pl.map Prod.snd)

/-- The clustering entry point `RandomProjectionClustering.main_function` reduced to
its label flow: project the waveforms through the seeded random-projection matrix,
cluster the feature vectors once globally (`hdb`, the hdbscan call at
random_projections.py line 117), prune invalid and empty templates with the label
resets of lines 169-173, and deduplicate via matching.  `g seed` models the private
`np.random.RandomState(seed)` draws of line 74. -/
def rpPipeline (g : Nat → Nat → Nat → ℚ) (hdb : List (List ℚ) → List Int)
    (sim : Nat → Nat → Bool) (num_chans nbp : Nat) (wfs : List (List (List ℚ)))
    (valid empt : List Bool) (seed : Nat) : List Int × List Int :=
  let m := projectionsMatrix (g seed) num_chans nbp
  let pl0 := hdb (wfs.map (featureVector m))
  let pl1 := prunePeakLabels valid empt pl0
  remove_duplicates_via_matching sim (whereTrue valid).length pl1

/-- `CircusClustering.main_function` together with its effect on the process-wide
NumPy random generator (modelled as a `Nat` state): circus.py line 95 executes
`np.random.seed(d["random_seed"])`, after which the later stages (`select_peaks`,
the TruncatedSVD fit) consume the reseeded generator; `seedFn` models the state
written by `np.random.seed` and `adv` the subsequent consumption.  The incoming
state `grng` is discarded. -/
def circusMainWithGlobalRng (fam : Nat → Int → Nat → Except Unit (List Int))
    (sim : Nat → Nat → Bool) (channels : List Int) (seedFn adv : Nat → Nat)
    (seed : Nat) (_grng : Nat) : (List Int × List Int) × Nat :=
  (circusPipeline fam sim channels seed, adv (seedFn seed))

/-- `RandomProjectionClustering.main_function` together with its effect on the
process-wide NumPy random generator: random_projections.py line 74 builds a private
`np.random.RandomState(d["random_seed"])` handle and the function never calls
`np.random.seed`, so the global state `grng` passes through unchanged. -/
def rpMainWithGlobalRng (g : Nat → Nat → Nat → ℚ) (hdb : List (List ℚ) → List Int)
    (sim : Nat → Nat → Bool) (num_chans nbp : Nat) (wfs : List (List (List ℚ)))
    (valid empt : List Bool) (seed : Nat) (grng : Nat) :
    (List Int × List Int) × Nat :=
  (rpPipeline g hdb sim num_chans nbp wfs valid empt seed, grng)

/-- The documented contract of the hdbscan label output: every label is at least `-1`,
and the non-noise labels are consecutive integers starting at 0, hence each is smaller
than the number of distinct non-noise labels. -/
def HdbscanContract (clus : Int → Nat → Except Unit (List Int)) : Prop :=
  ∀ c k ls, clus c k = Except.ok ls →
    ∀ l ∈ ls, -1 ≤ l ∧ (-1 < l → l < (distinctValid ls : Int))

/-- Invariant of the per-channel loop state `(peak_labels, nb_clusters)`: the offset is
nonnegative, every label lies in `[-1, nb_clusters)`, and two peaks carrying the same
non-noise label sit on the same channel. -/
def LoopInv (st : List PeakL × Int) : Prop :=
  0 ≤ st.2 ∧ (∀ p ∈ st.1, -1 ≤ p.2 ∧ p.2 < st.2) ∧
    (∀ p ∈ st.1, ∀ q ∈ st.1, p.2 = q.2 → 0 ≤ p.2 → p.1 = q.1)

/-- A per-channel clustering call that always raises, for concrete evaluation of the
exception fallback. -/
def errClus : Int → Nat → Except Unit (List Int) := fun _ _ => Except.error ()

/-- A seed-indexed family of per-channel clustering calls that put every peak of a
channel into local cluster 0, for concrete evaluation. -/
def clusFam0 : Nat → Int → Nat → Except Unit (List Int) :=
  fun _ _ k => Except.ok (List.replicate k 0)

/-- A template-similarity criterion declaring every pair similar, for concrete
evaluation. -/
def simTrue : Nat → Nat → Bool := fun _ _ => true

/-- A constant Gaussian stand-in for concrete evaluation of matrix shapes. -/
def gOne : Nat → Nat → Nat → ℚ := fun _ _ _ => 1

/-- A clustering call assigning every feature vector to cluster 0, for concrete
evaluation. -/
def hdbConst : List (List ℚ) → List Int := fun xs => xs.map (fun _ => 0)

theorem mem_survivors_lt (sim : Nat → Nat → Bool) :
    ∀ n i, i ∈ survivors sim n → i < n := by
  intro n
  induction n with
  | zero => intro i h; simp [survivors] at h
  | succ m ih =>
    intro i h
    simp only [survivors] at h
    by_cases hany : (survivors sim m).any (fun j => sim j m) = true
    · rw [if_pos hany] at h
      exact Nat.lt_succ_of_lt (ih i h)
    · rw [if_neg hany] at h
      rcases List.mem_append.mp h with h1 | h2
      · exact Nat.lt_succ_of_lt (ih i h1)
      · simp at h2
        omega

theorem relabelMap_cases (sim : Nat → Nat → Bool) (n : Nat) (l : Int) :
    relabelMap sim n l = -1 ∨
      ∃ s ∈ survivors sim n, relabelMap sim n l = (s : Int) := by
  unfold relabelMap
  by_cases hin : 0 ≤ l ∧ l < (n : Int)
  · rw [if_pos hin]
    unfold reprOf
    by_cases hs : l.toNat ∈ survivors sim n
    · right
      exact ⟨l.toNat, hs, by rw [if_pos hs]⟩
    · rw [if_neg hs]
      rcases hf : (survivors sim n).find? (fun i => sim i l.toNat) with _ | i
      · left; rfl
      · right
        exact ⟨i, List.mem_of_find?_eq_some hf, rfl⟩
  · left; rw [if_neg hin]

theorem rdvm_label_valid (sim : Nat → Nat → Bool) (n : Nat) (pl : List Int) (l : Int)
    (h : l ∈ (remove_duplicates_via_matching sim n pl).2) :
    l = -1 ∨ l ∈ (remove_duplicates_via_matching sim n pl).1 := by
  unfold remove_duplicates_via_matching at h ⊢
  dsimp only at h ⊢
  obtain ⟨a, _, rfl⟩ := List.mem_map.mp h
  rcases relabelMap_cases sim n a with h1 | ⟨s, hs, h2⟩
  · left; exact h1
  · right
    rw [h2]
    exact List.mem_map_of_mem Int.ofNat hs

theorem reprOf_self_of_mem (sim : Nat → Nat → Bool) (n s : Nat)
    (h : s ∈ survivors sim n) : reprOf sim n s = (s : Int) := by
  unfold reprOf
  rw [if_pos h]

theorem relabelMap_idem (sim : Nat → Nat → Bool) (n : Nat) (l : Int) :
    relabelMap sim n (relabelMap sim n l) = relabelMap sim n l := by
  rcases relabelMap_cases sim n l with h | ⟨s, hs, h⟩
  · rw [h]
    unfold relabelMap
    rw [if_neg]
    intro hc
    exact absurd hc.1 (by norm_num)
  · rw [h]
    unfold relabelMap
    have hlt : (s : Int) < (n : Int) := by
      exact_mod_cast mem_survivors_lt sim n s hs
    rw [if_pos ⟨Int.ofNat_nonneg s, hlt⟩]
    rw [Int.toNat_natCast]
    exact reprOf_self_of_mem sim n s hs

theorem scatter_map_fst (c : Int) :
    ∀ (pl : List PeakL) (ls : List Int),
      (scatter pl c ls).map Prod.fst = pl.map Prod.fst := by
  intro pl
  induction pl with
  | nil => intro ls; rfl
  | cons p rest ih =>
    intro ls
    cases ls with
    | nil => simp [scatter, ih]
    | cons x xs =>
      by_cases hp : p.1 = c
      · simp [scatter, hp, ih]
      · simp [scatter, hp, ih]

theorem mem_scatter {c : Int} {p : PeakL} :
    ∀ {pl : List PeakL} {ls : List Int}, p ∈ scatter pl c ls →
      (p.1 ≠ c ∧ p ∈ pl) ∨ (p.1 = c ∧ (p.2 ∈ ls ∨ p ∈ pl)) := by
  intro pl
  induction pl with
  | nil => intro ls h; simp [scatter] at h
  | cons q rest ih =>
    intro ls h
    cases ls with
    | nil =>
      rw [scatter] at h
      rcases List.mem_cons.mp h with rfl | h2
      · by_cases hq : p.1 = c
        · exact Or.inr ⟨hq, Or.inr (List.mem_cons_self _ _)⟩
        · exact Or.inl ⟨hq, List.mem_cons_self _ _⟩
      · rcases ih h2 with ⟨h3, h4⟩ | ⟨h3, h4 | h5⟩
        · exact Or.inl ⟨h3, List.mem_cons_of_mem _ h4⟩
        · simp at h4
        · exact Or.inr ⟨h3, Or.inr (List.mem_cons_of_mem _ h5)⟩
    | cons x xs =>
      rw [scatter] at h
      by_cases hq : q.1 = c
      · rw [if_pos hq] at h
        rcases List.mem_cons.mp h with rfl | h2
        · exact Or.inr ⟨hq, Or.inl (List.mem_cons_self _ _)⟩
        · rcases ih h2 with ⟨h3, h4⟩ | ⟨h3, h4 | h5⟩
          · exact Or.inl ⟨h3, List.mem_cons_of_mem _ h4⟩
          · exact Or.inr ⟨h3, Or.inl (List.mem_cons_of_mem _ h4)⟩
          · exact Or.inr ⟨h3, Or.inr (List.mem_cons_of_mem _ h5)⟩
      · rw [if_neg hq] at h
        rcases List.mem_cons.mp h with rfl | h2
        · by_cases hp : p.1 = c
          · exact Or.inr ⟨hp, Or.inr (List.mem_cons_self _ _)⟩
          · exact Or.inl ⟨hp, List.mem_cons_self _ _⟩
        · rcases ih h2 with ⟨h3, h4⟩ | ⟨h3, h4 | h5⟩
          · exact Or.inl ⟨h3, List.mem_cons_of_mem _ h4⟩
          · exact Or.inr ⟨h3, Or.inl h4⟩
          · exact Or.inr ⟨h3, Or.inr (List.mem_cons_of_mem _ h5)⟩

theorem mem_scatter_of_ne {c : Int} {p : PeakL} (hne : p.1 ≠ c) :
    ∀ {pl : List PeakL} {ls : List Int}, p ∈ pl → p ∈ scatter pl c ls := by
  intro pl
  induction pl with
  | nil => intro ls h; simp at h
  | cons q rest ih =>
    intro ls h
    cases ls with
    | nil =>
      rw [scatter]
      rcases List.mem_cons.mp h with rfl | h2
      · exact List.mem_cons_self _ _
      · exact List.mem_cons_of_mem _ (ih h2)
    | cons x xs =>
      rw [scatter]
      by_cases hq : q.1 = c
      · rw [if_pos hq]
        rcases List.mem_cons.mp h with rfl | h2
        · exact absurd hq hne
        · exact List.mem_cons_of_mem _ (ih h2)
      · rw [if_neg hq]
        rcases List.mem_cons.mp h with rfl | h2
        · exact List.mem_cons_self _ _
        · exact List.mem_cons_of_mem _ (ih h2)

theorem countCh_cons (q : PeakL) (rest : List PeakL) (c : Int) :
    countCh (q :: rest) c = countCh rest c + if q.1 = c then 1 else 0 := by
  simp [countCh, List.count_cons, beq_iff_eq]

theorem scatter_replicate_label {c : Int} {v : Int} :
    ∀ (pl : List PeakL) (n : Nat), countCh pl c ≤ n →
      ∀ p ∈ scatter pl c (List.replicate n v), p.1 = c → p.2 = v := by
  intro pl
  induction pl with
  | nil => intro n _ p hp; simp [scatter] at hp
  | cons q rest ih =>
    intro n hn p hp hpc
    rw [countCh_cons] at hn
    by_cases hq : q.1 = c
    · rw [if_pos hq] at hn
      cases n with
      | zero => omega
      | succ m =>
        rw [List.replicate_succ, scatter, if_pos hq] at hp
        rcases List.mem_cons.mp hp with rfl | h2
        · rfl
        · exact ih m (by omega) p h2 hpc
    · rw [if_neg hq] at hn
      cases n with
      | zero =>
        rw [List.replicate] at hp
        rw [scatter] at hp
        rcases List.mem_cons.mp hp with rfl | h2
        · exact absurd hpc hq
        · exact ih 0 (by omega) p h2 hpc
      | succ m =>
        rw [List.replicate_succ, scatter, if_neg hq] at hp
        rcases List.mem_cons.mp hp with rfl | h2
        · exact absurd hpc hq
        · rw [← List.replicate_succ] at h2
          exact ih (m + 1) (by omega) p h2 hpc

theorem shiftLabel_of_valid {nb l : Int} (h : -1 < l) : shiftLabel nb l = l + nb :=
  if_pos h

theorem shiftLabel_of_noise {nb l : Int} (h : ¬(-1 < l)) : shiftLabel nb l = l :=
  if_neg h

theorem filter_shift (nb : Int) (ls : List Int) (hls : ∀ l ∈ ls, -1 ≤ l)
    (hnb : 0 ≤ nb) :
    (ls.map (shiftLabel nb)).filter (fun l => decide (-1 < l)) =
      (ls.filter (fun l => decide (-1 < l))).map (fun l => l + nb) := by
  induction ls with
  | nil => rfl
  | cons x xs ih =>
    have hx : -1 ≤ x := hls x (List.mem_cons_self _ _)
    have ih2 := ih (fun l hl => hls l (List.mem_cons_of_mem _ hl))
    by_cases hv : -1 < x
    · rw [List.map_cons, shiftLabel_of_valid hv, List.filter_cons, List.filter_cons]
      rw [if_pos (by simp only [decide_eq_true_eq]; omega),
        if_pos (by simp only [decide_eq_true_eq]; exact hv)]
      rw [List.map_cons, ih2]
    · rw [List.map_cons, shiftLabel_of_noise hv, List.filter_cons, List.filter_cons]
      rw [if_neg (by simpa using hv), if_neg (by simpa using hv)]
      exact ih2

theorem dedup_map_add (nb : Int) :
    ∀ ls : List Int, (ls.map (fun l => l + nb)).dedup = ls.dedup.map (fun l => l + nb) := by
  intro ls
  induction ls with
  | nil => rfl
  | cons x xs ih =>
    rw [List.map_cons]
    by_cases hx : x ∈ xs
    · have hxm : x + nb ∈ xs.map (fun l => l + nb) := List.mem_map.mpr ⟨x, hx, rfl⟩
      rw [List.dedup_cons_of_mem hx, List.dedup_cons_of_mem hxm]
      exact ih
    · have hx2 : x + nb ∉ xs.map (fun l => l + nb) := by
        intro hc
        obtain ⟨a, ha, ha2⟩ := List.mem_map.mp hc
        have : a = x := by omega
        exact hx (this ▸ ha)
      rw [List.dedup_cons_of_not_mem hx, List.dedup_cons_of_not_mem hx2,
        List.map_cons, ih]

theorem distinctValid_shift (nb : Int) (ls : List Int) (hls : ∀ l ∈ ls, -1 ≤ l)
    (hnb : 0 ≤ nb) :
    distinctValid (ls.map (shiftLabel nb)) = distinctValid ls := by
  unfold distinctValid
  rw [filter_shift nb ls hls hnb, dedup_map_add, List.length_map]

theorem mem_shift_bound (nb : Int) (ls : List Int)
    (hcon : ∀ l ∈ ls, -1 ≤ l ∧ (-1 < l → l < (distinctValid ls : Int)))
    (hnb : 0 ≤ nb) :
    ∀ l2 ∈ ls.map (shiftLabel nb),
      -1 ≤ l2 ∧ (0 ≤ l2 → nb ≤ l2 ∧ l2 < nb + (distinctValid ls : Int)) := by
  intro l2 h
  obtain ⟨l0, h0, rfl⟩ := List.mem_map.mp h
  obtain ⟨ha, hb⟩ := hcon l0 h0
  by_cases hv : -1 < l0
  · rw [shiftLabel_of_valid hv]
    have hd := hb hv
    constructor
    · omega
    · intro _; omega
  · rw [shiftLabel_of_noise hv]
    constructor
    · exact ha
    · intro hc; omega

theorem filter_replicate_of_pos (k : Nat) (v : Int) (hv : -1 < v) :
    (List.replicate k v).filter (fun l => decide (-1 < l)) = List.replicate k v := by
  induction k with
  | zero => rfl
  | succ m ih =>
    rw [List.replicate_succ, List.filter_cons, if_pos (by simpa using hv), ih]

theorem dedup_replicate (v : Int) : ∀ k : Nat, k ≠ 0 → (List.replicate k v).dedup = [v] := by
  intro k
  induction k with
  | zero => intro h; exact absurd rfl h
  | succ m ih =>
    intro _
    cases m with
    | zero => rfl
    | succ m2 =>
      rw [List.replicate_succ,
        List.dedup_cons_of_mem (List.mem_replicate.mpr ⟨Nat.succ_ne_zero m2, rfl⟩)]
      exact ih (Nat.succ_ne_zero m2)

theorem distinctValid_replicate (k : Nat) (v : Int) (hk : k ≠ 0) (hv : -1 < v) :
    distinctValid (List.replicate k v) = 1 := by
  unfold distinctValid
  rw [filter_replicate_of_pos k v hv, dedup_replicate v k hk]
  rfl

theorem localLabels_spec (clus : Int → Nat → Except Unit (List Int))
    (hcl : HdbscanContract clus) (c : Int) (k : Nat) :
    ∀ l ∈ localLabels clus c k,
      -1 ≤ l ∧ (-1 < l → l < (distinctValid (localLabels clus c k) : Int)) := by
  unfold localLabels
  rcases hc : clus c k with e | ls
  · intro l hl
    have hl0 : l = 0 := List.eq_of_mem_replicate hl
    have hk : k ≠ 0 := by
      intro h
      subst h
      simp at hl
    subst hl0
    refine ⟨by norm_num, fun _ => ?_⟩
    rw [distinctValid_replicate k 0 hk (by norm_num)]
    norm_num
  · exact hcl c k ls hc

theorem channelStep_inv (clus : Int → Nat → Except Unit (List Int))
    (hcl : HdbscanContract clus) (st : List PeakL × Int) (c : Int)
    (h : LoopInv st) : LoopInv (channelStep clus st c) := by
  obtain ⟨hnb, hA, hB⟩ := h
  simp only [channelStep]
  by_cases hcond :
      0 < ((localLabels clus c (countCh st.1 c)).filter (fun l => decide (-1 < l))).length
  · rw [if_pos hcond]
    have hspec := localLabels_spec clus hcl c (countCh st.1 c)
    have hls : ∀ l ∈ localLabels clus c (countCh st.1 c), -1 ≤ l :=
      fun l hl => (hspec l hl).1
    have hDeq := distinctValid_shift st.2 _ hls hnb
    have hbound := mem_shift_bound st.2 _ hspec hnb
    have hDnn : (0 : Int) ≤ (distinctValid ((localLabels clus c (countCh st.1 c)).map (shiftLabel st.2)) : Int) :=
      Int.ofNat_nonneg _
    refine ⟨by omega, ?_, ?_⟩
    · intro p hp
      rcases mem_scatter hp with ⟨_, hmem⟩ | ⟨_, h2 | hmem⟩
      · have := hA p hmem
        omega
      · have := hbound p.2 h2
        rw [hDeq]
        by_cases hz : 0 ≤ p.2
        · have := this.2 hz
          omega
        · have := this.1
          rw [hDeq] at hDnn
          omega
      · have := hA p hmem
        omega
    · intro p hp q hq hpq hpos
      rcases mem_scatter hp with ⟨_, hm1⟩ | ⟨he1, ho1⟩ <;>
        rcases mem_scatter hq with ⟨_, hm2⟩ | ⟨he2, ho2⟩
      · exact hB p hm1 q hm2 hpq hpos
      · rcases ho2 with h2 | hm2
        · have hq2 := (hbound q.2 h2).2 (by omega)
          have hp2 := (hA p hm1).2
          omega
        · exact hB p hm1 q hm2 hpq hpos
      · rcases ho1 with h1 | hm1
        · have hp2 := (hbound p.2 h1).2 hpos
          have hq2 := (hA q hm2).2
          omega
        · exact hB p hm1 q hm2 hpq hpos
      · rw [he1, he2]
  · rw [if_neg hcond]
    exact ⟨hnb, hA, hB⟩

theorem loop_inv (clus : Int → Nat → Except Unit (List Int))
    (hcl : HdbscanContract clus) :
    ∀ (chans : List Int) (st : List PeakL × Int), LoopInv st →
      LoopInv (chans.foldl (channelStep clus) st) := by
  intro chans
  induction chans with
  | nil => intro st h; exact h
  | cons c cs ih =>
    intro st h
    exact ih _ (channelStep_inv clus hcl st c h)

theorem initLabels_inv (channels : List Int) : LoopInv (initLabels channels, 0) := by
  refine ⟨le_refl 0, ?_, ?_⟩
  · intro p hp
    obtain ⟨c, _, rfl⟩ := List.mem_map.mp hp
    exact ⟨le_refl _, by norm_num⟩
  · intro p hp q hq hpq hpos
    obtain ⟨c, _, rfl⟩ := List.mem_map.mp hp
    exact absurd hpos (by norm_num)

theorem channelStep_map_fst (clus : Int → Nat → Except Unit (List Int))
    (st : List PeakL × Int) (c : Int) :
    ((channelStep clus st c).1).map Prod.fst = st.1.map Prod.fst := by
  simp only [channelStep]
  by_cases hcond :
      0 < ((localLabels clus c (countCh st.1 c)).filter (fun l => decide (-1 < l))).length
  · rw [if_pos hcond]
    exact scatter_map_fst c st.1 _
  · rw [if_neg hcond]

theorem foldl_map_fst (clus : Int → Nat → Except Unit (List Int)) :
    ∀ (cs : List Int) (st : List PeakL × Int),
      ((cs.foldl (channelStep clus) st).1).map Prod.fst = st.1.map Prod.fst := by
  intro cs
  induction cs with
  | nil => intro st; rfl
  | cons c rest ih =>
    intro st
    rw [List.foldl_cons, ih, channelStep_map_fst]

theorem channelStep_nb_le (clus : Int → Nat → Except Unit (List Int))
    (st : List PeakL × Int) (c : Int) : st.2 ≤ (channelStep clus st c).2 := by
  simp only [channelStep]
  by_cases hcond :
      0 < ((localLabels clus c (countCh st.1 c)).filter (fun l => decide (-1 < l))).length
  · rw [if_pos hcond]
    have := Int.ofNat_nonneg
      (distinctValid ((localLabels clus c (countCh st.1 c)).map (shiftLabel st.2)))
    omega
  · rw [if_neg hcond]

theorem foldl_nb_le (clus : Int → Nat → Except Unit (List Int)) :
    ∀ (cs : List Int) (st : List PeakL × Int),
      st.2 ≤ (cs.foldl (channelStep clus) st).2 := by
  intro cs
  induction cs with
  | nil => intro st; exact le_refl _
  | cons c rest ih =>
    intro st
    exact le_trans (channelStep_nb_le clus st c) (ih _)

theorem channelStep_mem_other (clus : Int → Nat → Except Unit (List Int))
    (st : List PeakL × Int) (c : Int) {p : PeakL} (hne : p.1 ≠ c) :
    p ∈ (channelStep clus st c).1 ↔ p ∈ st.1 := by
  simp only [channelStep]
  by_cases hcond :
      0 < ((localLabels clus c (countCh st.1 c)).filter (fun l => decide (-1 < l))).length
  · rw [if_pos hcond]
    constructor
    · intro h
      rcases mem_scatter h with ⟨_, hm⟩ | ⟨he, _⟩
      · exact hm
      · exact absurd he hne
    · intro h
      exact mem_scatter_of_ne hne h
  · rw [if_neg hcond]

theorem foldl_mem_other (clus : Int → Nat → Except Unit (List Int)) {cFix : Int} :
    ∀ (cs : List Int), cFix ∉ cs →
      ∀ (st : List PeakL × Int) (p : PeakL), p.1 = cFix →
        (p ∈ (cs.foldl (channelStep clus) st).1 ↔ p ∈ st.1) := by
  intro cs
  induction cs with
  | nil => intro _ st p _; exact Iff.rfl
  | cons c rest ih =>
    intro hnc st p hp
    have hne : p.1 ≠ c := by
      rw [hp]
      intro h
      exact hnc (h ▸ List.mem_cons_self _ _)
    rw [List.foldl_cons, ih (fun hc => hnc (List.mem_cons_of_mem _ hc)) _ p hp,
      channelStep_mem_other clus st c hne]

theorem mem_labelsOf {pl : List PeakL} {p : PeakL} (hp : p ∈ pl) (hv : 0 ≤ p.2) :
    p.2 ∈ labelsOf pl := by
  unfold labelsOf npUnique
  rw [List.mem_filter]
  refine ⟨?_, decide_eq_true hv⟩
  rw [(List.perm_insertionSort _ _).mem_iff, List.mem_dedup]
  exact List.mem_map_of_mem Prod.snd hp

theorem npUnique_nodup (xs : List Int) : (npUnique xs).Nodup :=
  (List.perm_insertionSort _ _).nodup_iff.mpr (List.nodup_dedup xs)

theorem mem_npUnique {xs : List Int} {c : Int} : c ∈ npUnique xs ↔ c ∈ xs := by
  rw [npUnique, (List.perm_insertionSort _ _).mem_iff, List.mem_dedup]

theorem initLabels_map_fst (channels : List Int) :
    (initLabels channels).map Prod.fst = channels := by
  rw [initLabels, List.map_map]
  exact List.map_id channels

theorem channelStep_err (clus : Int → Nat → Except Unit (List Int))
    (st : List PeakL × Int) (c : Int)
    (herr : clus c (countCh st.1 c) = Except.error ())
    (hk : 0 < countCh st.1 c) (hnb : 0 ≤ st.2) :
    channelStep clus st c =
      (scatter st.1 c (List.replicate (countCh st.1 c) st.2), st.2 + 1) := by
  have hll : localLabels clus c (countCh st.1 c) =
      List.replicate (countCh st.1 c) 0 := by
    rw [localLabels, herr]
  have hcond :
      0 < ((List.replicate (countCh st.1 c) (0 : Int)).filter
        (fun l => decide (-1 < l))).length := by
    rw [filter_replicate_of_pos _ 0 (by norm_num), List.length_replicate]
    exact hk
  have hsh : shiftLabel st.2 0 = st.2 := by
    rw [shiftLabel_of_valid (by norm_num)]
    exact zero_add st.2
  simp only [channelStep, hll]
  rw [if_pos hcond, List.map_replicate, hsh,
    distinctValid_replicate _ _ (Nat.pos_iff_ne_zero.mp hk) (by omega)]
  norm_num

/-- Claim C2 (counterexample): a single channel (index 5) with two peaks whose
per-channel hdbscan call raises.  The fallback labels `np.zeros` are treated as an
ordinary cluster: both peaks end with label 0 (not the noise label `-1`) and 0 enters
the global cluster-id list, refuting the claim that the peaks of a failing channel are
marked entirely as noise and kept out of the cluster-id space. -/
theorem failed_channel_not_noise :
    (circusClusterLabels errClus [5, 5]).1 = [(5, 0), (5, 0)] ∧
    (0 : Int) ∈ labelsOf (circusClusterLabels errClus [5, 5]).1 ∧
    (0 : Int) ≠ -1 := by
  decide

/-- Claim C2 (amended): if the per-channel hdbscan call raises for a channel `c`, every
peak of that channel receives one common non-noise label (the running offset: the
whole channel becomes a single fresh cluster entering the global cluster-id space),
and the loop continues over the remaining channels. -/
theorem failed_channel_single_cluster (clus : Int → Nat → Except Unit (List Int))
    (channels : List Int) (c : Int)
    (herr : ∀ k, clus c k = Except.error ()) (hmem : c ∈ channels) :
    (∀ p ∈ (circusClusterLabels clus channels).1, p.1 = c →
        0 ≤ p.2 ∧ p.2 ∈ labelsOf (circusClusterLabels clus channels).1) ∧
    (∀ p ∈ (circusClusterLabels clus channels).1,
        ∀ q ∈ (circusClusterLabels clus channels).1,
          p.1 = c → q.1 = c → p.2 = q.2) := by
  obtain ⟨l1, l2, hsplit⟩ := List.append_of_mem (mem_npUnique.mpr hmem)
  have hnd := npUnique_nodup channels
  rw [hsplit] at hnd
  have hc2 : c ∉ l2 := (List.nodup_cons.mp hnd.of_append_right).1
  have hloop : circusClusterLabels clus channels =
      l2.foldl (channelStep clus)
        (channelStep clus (l1.foldl (channelStep clus) (initLabels channels, 0)) c) := by
    rw [circusClusterLabels, circusChannelLoop, hsplit, List.foldl_append,
      List.foldl_cons]
  generalize hst1 : l1.foldl (channelStep clus) (initLabels channels, 0) = st1 at hloop
  have hfst1 : st1.1.map Prod.fst = channels := by
    rw [← hst1, foldl_map_fst]
    exact initLabels_map_fst channels
  have hnb1 : (0 : Int) ≤ st1.2 := by
    have h := foldl_nb_le clus l1 (initLabels channels, 0)
    rw [hst1] at h
    exact h
  have hk : 0 < countCh st1.1 c := by
    rw [countCh, hfst1]
    exact List.count_pos_iff.mpr hmem
  rw [channelStep_err clus st1 c (herr _) hk hnb1] at hloop
  have hkey : ∀ p ∈ (circusClusterLabels clus channels).1, p.1 = c → p.2 = st1.2 := by
    intro p hp hpc
    rw [hloop] at hp
    have hp2 := (foldl_mem_other clus l2 hc2 _ p hpc).mp hp
    exact scatter_replicate_label st1.1 (countCh st1.1 c) (le_refl _) p hp2 hpc
  constructor
  · intro p hp hpc
    have h2 := hkey p hp hpc
    refine ⟨by omega, ?_⟩
    exact mem_labelsOf hp (by omega)
  · intro p hp q hq hpc hqc
    rw [hkey p hp hpc, hkey q hq hqc]

/-- Witness for claim C2 (amended): channel 5 with two peaks and a raising hdbscan
call; the common label 0 is nonnegative and belongs to the global cluster-id list. -/
theorem failed_channel_single_cluster_witness :
    0 ≤ ((5, 0) : PeakL).2 ∧
    ((5, 0) : PeakL).2 ∈ labelsOf (circusClusterLabels errClus [5, 5]).1 :=
  (failed_channel_single_cluster errClus [5, 5] 5 (fun _ => rfl) (by decide)).1
    (5, 0) (by decide) rfl

/-- Claim C6: in the learned-subspace path, clustering runs independently per channel
and the local labels of each channel are renumbered by the running global offset
`nb_clusters`; given the hdbscan output contract (non-noise labels consecutive from
0), two peaks on distinct channels never carry the same non-noise cluster index. -/
theorem channel_labels_disjoint (clus : Int → Nat → Except Unit (List Int))
    (channels : List Int) (hcl : HdbscanContract clus) :
    ∀ p ∈ (circusClusterLabels clus channels).1,
      ∀ q ∈ (circusClusterLabels clus channels).1,
        p.1 ≠ q.1 → 0 ≤ p.2 → p.2 ≠ q.2 := by
  intro p hp q hq hne hpos heq
  have hinv := loop_inv clus hcl (npUnique channels) (initLabels channels, 0)
    (initLabels_inv channels)
  exact hne (hinv.2.2 p hp q hq heq hpos)

/-- Witness for claim C6: two channels whose clustering calls both raise; the two
resulting clusters receive the distinct global indices 0 and 1. -/
theorem channel_labels_disjoint_witness :
    ((0, 0) : PeakL) ∈ (circusClusterLabels errClus [0, 1]).1 ∧
    ((1, 1) : PeakL) ∈ (circusClusterLabels errClus [0, 1]).1 ∧
    (0 : Int) ≠ 1 := by
  refine ⟨by decide, by decide, ?_⟩
  exact channel_labels_disjoint errClus [0, 1]
    (fun c k ls h => Except.noConfusion h)
    (0, 0) (by decide) (1, 1) (by decide) (by decide) (by decide)

/-- Claim C3: every peak label returned by a clustering entry point is either `-1` or an
element of the returned `labels` sequence; neither `CircusClustering.main_function` nor
`RandomProjectionClustering.main_function` returns a non-noise label referencing a unit
absent from `labels`. -/
theorem label_validity (fam : Nat → Int → Nat → Except Unit (List Int))
    (sim : Nat → Nat → Bool) (channels : List Int) (seed : Nat)
    (g : Nat → Nat → Nat → ℚ) (hdb : List (List ℚ) → List Int) (nc nbp : Nat)
    (wfs : List (List (List ℚ))) (valid empt : List Bool) (l : Int) :
    (l ∈ (circusPipeline fam sim channels seed).2 →
      l = -1 ∨ l ∈ (circusPipeline fam sim channels seed).1) ∧
    (l ∈ (rpPipeline g hdb sim nc nbp wfs valid empt seed).2 →
      l = -1 ∨ l ∈ (rpPipeline g hdb sim nc nbp wfs valid empt seed).1) := by
  constructor
  · intro h
    exact rdvm_label_valid sim _ _ l h
  · intro h
    exact rdvm_label_valid sim _ _ l h

/-- Witness for claim C3 at a concrete input: a one-channel recording whose single
cluster survives; the returned label 0 indeed appears in the returned labels list. -/
theorem label_validity_witness :
    (0 : Int) = -1 ∨ (0 : Int) ∈ (circusPipeline clusFam0 simTrue [0] 42).1 :=
  (label_validity clusFam0 simTrue [0] 42 gOne hdbConst 4 10 [] [] [] 0).1 (by decide)

/-- Claim C4: the matching-based deduplication is idempotent; applied to the peak-label
array it itself produced, with the same templates (the same similarity criterion `sim`
over the same `n` units), it returns the same `(labels, peak_labels)` pair unchanged. -/
theorem dedup_idempotent (sim : Nat → Nat → Bool) (n : Nat) (pl : List Int) :
    remove_duplicates_via_matching sim n
        ((remove_duplicates_via_matching sim n pl).2) =
      remove_duplicates_via_matching sim n pl := by
  unfold remove_duplicates_via_matching
  congr 1
  rw [List.map_map]
  exact List.map_congr_left (fun a _ => relabelMap_idem sim n a)

/-- Claim C5 (counterexample): at `ms_before = 0.5` and `fs = 3000.0`,
`ms_before * fs / 1000 = 1.5`; the code computes `int(1.5) = 1` while the claimed
`round(1.5)` is `2`, so `nbefore` is not computed by rounding. -/
theorem nbefore_of_ne_round :
    nbefore_of (1/2) 3000 ≠ pyRound ((1/2 : ℚ) * 3000 / 1000) := by
  have hq : ((1 : ℚ)/2) * 3000 / 1000 = 3/2 := by norm_num
  have hf : ⌊(3/2 : ℚ)⌋ = 1 := by
    rw [Int.floor_eq_iff]
    norm_num
  simp only [nbefore_of, pyInt, pyRound, hq, hf]
  norm_num

/-- Claim C5 (amended): for nonnegative millisecond parameters and sampling frequency,
the code computes `nbefore = int(ms_before * fs / 1000)`, a truncation which on
nonnegative values equals the floor (not the claimed rounding), symmetrically for
`nafter`, and `num_samples = nbefore + nafter`. -/
theorem nbefore_truncates (msb msa fs : ℚ) (h1 : 0 ≤ msb) (h2 : 0 ≤ msa)
    (h3 : 0 ≤ fs) :
    nbefore_of msb fs = ⌊msb * fs / 1000⌋ ∧
    num_samples_of msb msa fs = ⌊msb * fs / 1000⌋ + ⌊msa * fs / 1000⌋ := by
  have e : ∀ ms : ℚ, 0 ≤ ms → nbefore_of ms fs = ⌊ms * fs / 1000⌋ := by
    intro ms hms
    unfold nbefore_of pyInt
    rw [if_pos]
    exact div_nonneg (mul_nonneg hms h3) (by norm_num)
  exact ⟨e msb h1, by rw [num_samples_of, e msb h1, e msa h2]⟩

/-- Witness for claim C5 (amended) at `ms_before = ms_after = 0.5`, `fs = 3000`. -/
theorem nbefore_truncates_witness :
    nbefore_of (1/2) 3000 = ⌊((1 : ℚ)/2) * 3000 / 1000⌋ ∧
    num_samples_of (1/2) (1/2) 3000 =
      ⌊((1 : ℚ)/2) * 3000 / 1000⌋ + ⌊((1 : ℚ)/2) * 3000 / 1000⌋ :=
  nbefore_truncates (1/2) (1/2) 3000 (by norm_num) (by norm_num) (by norm_num)

/-- Claim C7 (counterexample): with 4 channels and `nb_projections = 10` the code draws
`min(4, 10) = 4` projections, so the feature vector of a peak has length 4, not the
configured 10. -/
theorem feature_length_ne_nb_projections :
    (featureVector (projectionsMatrix (gOne 0) 4 10) [[1, 0, 0, 0]]).length = 4 ∧
    (4 : Nat) ≠ 10 := by
  constructor
  · rfl
  · decide

/-- Claim C7 (amended): the projection matrix has `num_channels` rows of
`min(num_channels, nb_projections)` Gaussian entries each, and every feature vector
has length `min(num_channels, nb_projections)` (one scalar per projected channel). -/
theorem projection_shape_min (g : Nat → Nat → ℚ) (nc nbp : Nat)
    (wf : List (List ℚ)) :
    (projectionsMatrix g nc nbp).length = nc ∧
    (projectionsMatrix g nc nbp).map List.length = List.replicate nc (min nc nbp) ∧
    (featureVector (projectionsMatrix g nc nbp) wf).length = min nc nbp := by
  have hnc : numCols (projectionsMatrix g nc nbp) = min nc nbp := by
    cases nc with
    | zero => simp [projectionsMatrix, numCols]
    | succ k =>
      simp [projectionsMatrix, numCols, List.range_succ_eq_map, num_projections_of]
  refine ⟨by simp [projectionsMatrix], ?_, by simp [featureVector, hnc]⟩
  rw [projectionsMatrix, List.map_map]
  have hrow : ∀ i ∈ List.range nc,
      (List.length ∘ fun i => (List.range (num_projections_of nc nbp)).map (g i)) i =
        (fun _ => min nc nbp) i := by
    intro i _
    simp [num_projections_of]
  rw [List.map_congr_left hrow]
  simp [List.map_const]

/-- Claim C8: on a peak array of length 0, the repository-side label computation
returns empty labels and empty peak labels: the per-channel loop leaves the empty
label array empty, the raw cluster list is empty, and the deduplication of an empty
label array over 0 units returns the empty pair.  (The crash the claim rules out
happens in the external fitting calls, outside this code.) -/
theorem empty_peaks_empty_labels (clus : Int → Nat → Except Unit (List Int))
    (sim : Nat → Nat → Bool) :
    (circusClusterLabels clus []).1 = [] ∧
    labelsOf (circusClusterLabels clus []).1 = [] ∧
    remove_duplicates_via_matching sim 0 [] = ([], []) :=
  ⟨rfl, rfl, rfl⟩

/-- Claim C9: with the seed and all parameters fixed, two runs of either clustering
pipeline on the same input produce identical `(labels, peak_labels)` pairs; every
source of randomness is a function of the seed parameter. -/
theorem pipeline_deterministic (fam : Nat → Int → Nat → Except Unit (List Int))
    (sim : Nat → Nat → Bool) (channels : List Int)
    (g : Nat → Nat → Nat → ℚ) (hdb : List (List ℚ) → List Int) (nc nbp : Nat)
    (wfs : List (List (List ℚ))) (valid empt : List Bool) (s1 s2 : Nat)
    (h : s1 = s2) :
    circusPipeline fam sim channels s1 = circusPipeline fam sim channels s2 ∧
    rpPipeline g hdb sim nc nbp wfs valid empt s1 =
      rpPipeline g hdb sim nc nbp wfs valid empt s2 := by
  subst h
  exact ⟨rfl, rfl⟩

/-- Witness for claim C9 at the default seed 42 on a concrete one-channel input. -/
theorem pipeline_deterministic_witness :
    circusPipeline clusFam0 simTrue [0] 42 = circusPipeline clusFam0 simTrue [0] 42 ∧
    rpPipeline gOne hdbConst simTrue 4 10 [] [] [] 42 =
      rpPipeline gOne hdbConst simTrue 4 10 [] [] [] 42 :=
  pipeline_deterministic clusFam0 simTrue [0] gOne hdbConst 4 10 [] [] [] 42 42 rfl

/-- Claim C10: `CircusClustering.main_function` reseeds the process-wide NumPy
generator (its post-call state is a function of the configured seed alone,
independent of the incoming state), while `RandomProjectionClustering.main_function`
draws from a private `RandomState` handle and leaves the global state unchanged. -/
theorem global_rng_effects (fam : Nat → Int → Nat → Except Unit (List Int))
    (sim : Nat → Nat → Bool) (channels : List Int) (seedFn adv : Nat → Nat)
    (seed : Nat) (g : Nat → Nat → Nat → ℚ) (hdb : List (List ℚ) → List Int)
    (nc nbp : Nat) (wfs : List (List (List ℚ))) (valid empt : List Bool)
    (grng grng2 : Nat) :
    (circusMainWithGlobalRng fam sim channels seedFn adv seed grng).2 =
      adv (seedFn seed) ∧
    (circusMainWithGlobalRng fam sim channels seedFn adv seed grng).2 =
      (circusMainWithGlobalRng fam sim channels seedFn adv seed grng2).2 ∧
    (rpMainWithGlobalRng g hdb sim nc nbp wfs valid empt seed grng).2 = grng :=
  ⟨rfl, rfl, rfl⟩

/-- Claim C1: evaluation of the pruning-stage label resets at a failing input.  Two
units over one channel with noise level 1 and noise threshold 4: unit 0 (central
amplitude 1) fails the SNR test, unit 1 (central amplitude 10) passes but its
sparsity mask comes out empty, so both units are removed.  Yet a peak labeled 1
keeps its label after the resets, because `np.where(empty_templates)[0]` indexes the
filtered template list while `peak_labels` holds original unit indices: the removed
unit 1 stays referenced, refuting the no-dangling-labels invariant. -/
theorem prune_leaves_dangling_label :
    (1 : Int) ∈ prunePeakLabels (validTemplates [[1], [10]] [1] 4) [true] [1] ∧
    (1 : Int) ∈ removedUnits (validTemplates [[1], [10]] [1] 4) [true] := by
  have h : validTemplates [[1], [10]] [1] 4 = [false, true] := by
    norm_num [validTemplates, absRow, argmaxIdx]
  rw [h]
  decide

end Clustering
